import Mathlib

/-!
Verification development for the pi-doom terminal transcoder
(src/doom-keys.ts, src/doom-renderer.ts, src/index.ts).

Conventions of the shallow embedding:
* JS strings are modelled as `List Nat` of UTF-16 code units (all inputs
  relevant here are ASCII, one unit per character).
* `Uint8Array` buffers are modelled as `List Nat`; `view.setUint32`,
  single-index stores and `TypedArray.set` blits become `List.set` /
  `setRange` writes into a zero-initialised `List.replicate` buffer.
* JS 32-bit bitwise operators are modelled on `Nat` values kept below
  2 ^ 32 (`x >>> k` is division, `& 0xff` is `% 256`, `^` is `Nat.xor`;
  signed vs unsigned representation does not change the 32-bit pattern).
* timers (`setTimeout` / `clearTimeout` / `clearInterval`) become an
  explicit key-state table of scheduled fire times together with a
  virtual-clock step `advanceTo` that fires every due entry in schedule
  order, exactly as the single-threaded JS event loop would.
-/

namespace PiDoom

/-- Write the bytes of `d` into `buf` starting at index `pos`
(the model of `TypedArray.set(d, pos)` and of consecutive-index store
loops); out-of-range stores are dropped, as `List.set` is the identity
past the end of the list. -/
def setRange (buf : List Nat) (pos : Nat) (d : List Nat) : List Nat :=
  match d with
  | [] => buf
  | x :: ds => setRange (buf.set pos x) (pos + 1) ds

theorem setRange_nil (buf : List Nat) (pos : Nat) : setRange buf pos [] = buf := rfl

theorem setRange_cons_succ (a : Nat) (l : List Nat) (k : Nat) (d : List Nat) :
    setRange (a :: l) (k + 1) d = a :: setRange l k d := by
  induction d generalizing a l k with
  | nil => rfl
  | cons x ds ih =>
      simp only [setRange, List.set]
      exact ih a (l.set k x) (k + 1)

theorem setRange_past_length (buf : List Nat) (pos : Nat) (d : List Nat)
    (h : buf.length ≤ pos) : setRange buf pos d = buf := by
  induction d generalizing buf pos with
  | nil => rfl
  | cons x ds ih =>
      simp only [setRange]
      rw [List.set_eq_of_length_le h]
      exact ih buf (pos + 1) (Nat.le_succ_of_le h)

theorem setRange_zero (d : List Nat) : ∀ l : List Nat, d.length ≤ l.length →
    setRange l 0 d = d ++ l.drop d.length := by
  induction d with
  | nil => intro l _; simp [setRange]
  | cons x ds ih =>
      intro l hl
      match l with
      | [] => simp at hl
      | a :: l' =>
          simp only [setRange, List.set, setRange_cons_succ]
          have := ih l' (by simpa using hl)
          simp [this]

theorem setRange_append (a rest d : List Nat) (pos : Nat) (h : pos = a.length) :
    setRange (a ++ rest) pos d = a ++ setRange rest 0 d := by
  subst h
  induction a with
  | nil => simp
  | cons x xs ih => simpa [setRange_cons_succ] using ih

theorem setRange_append_full (a rest d : List Nat) (pos : Nat)
    (h : pos = a.length) (hd : d.length ≤ rest.length) :
    setRange (a ++ rest) pos d = a ++ d ++ rest.drop d.length := by
  rw [setRange_append a rest d pos h, setRange_zero d rest hd, List.append_assoc]

theorem set_append_of_length (a rest : List Nat) (pos v : Nat) (h : pos = a.length) :
    (a ++ rest).set pos v = a ++ rest.set 0 v := by
  subst h
  induction a with
  | nil => simp
  | cons x xs ih => simpa [List.set] using ih

/-- Big-endian 4-byte encoding of a 32-bit value, the model of
`DataView.setUint32(pos, v, false)` (which stores `v` modulo 2 ^ 32). -/
def be32 (v : Nat) : List Nat :=
  [v / 16777216 % 256, v / 65536 % 256, v / 256 % 256, v % 256]

theorem be32_length (v : Nat) : (be32 v).length = 4 := rfl

/-- Big-endian 4-byte read, the model of `DataView.getUint32(0, false)`. -/
def readBE32 (l : List Nat) : Nat :=
  l.getD 0 0 * 16777216 + l.getD 1 0 * 65536 + l.getD 2 0 * 256 + l.getD 3 0

theorem readBE32_be32 (v : Nat) (rest : List Nat) (hv : v < 4294967296) :
    readBE32 (be32 v ++ rest) = v := by
  simp only [readBE32, be32, List.cons_append, List.getD_cons_zero, List.getD_cons_succ]
  omega

/-- Split a list into consecutive chunks of `n` elements (the final chunk
may be shorter); used to describe both the kitty base64 chunking and the
PNG scanline layout. -/
def chunksOf {α : Type} (n : Nat) : List α → List (List α)
  | [] => []
  | x :: xs =>
      if n = 0 then [x :: xs]
      else (x :: xs).take n :: chunksOf n ((x :: xs).drop n)
termination_by l => l.length
decreasing_by
  simp only [List.length_drop, List.length_cons]
  omega

theorem chunksOf_nil {α : Type} (n : Nat) : chunksOf n ([] : List α) = [] := by
  simp [chunksOf]

theorem chunksOf_cons {α : Type} (n : Nat) (l : List α) (h : l ≠ []) (hn : n ≠ 0) :
    chunksOf n l = l.take n :: chunksOf n (l.drop n) := by
  cases l with
  | nil => exact absurd rfl h
  | cons x xs =>
      conv_lhs => rw [chunksOf.eq_def]
      simp [hn]

theorem chunksOf_flatten {α : Type} (n : Nat) (hn : n ≠ 0) :
    ∀ l : List α, (chunksOf n l).flatten = l := by
  have H : ∀ len, ∀ l : List α, l.length ≤ len → (chunksOf n l).flatten = l := by
    intro len
    induction len with
    | zero =>
        intro l hl
        have : l = [] := by cases l <;> simp_all
        simp [this, chunksOf_nil]
    | succ m ih =>
        intro l hl
        by_cases h : l = []
        · simp [h, chunksOf_nil]
        · rw [chunksOf_cons n l h hn]
          simp only [List.flatten_cons]
          have hpos : 0 < l.length := List.length_pos.mpr h
          rw [ih (l.drop n) (by simp only [List.length_drop]; omega), List.take_append_drop]
  exact fun l => H l.length l le_rfl

theorem chunksOf_of_uniform {α : Type} (n : Nat) (hn : n ≠ 0) :
    ∀ rows : List (List α), (∀ r ∈ rows, r.length = n) →
      chunksOf n rows.flatten = rows := by
  intro rows
  induction rows with
  | nil => intro _; simp [chunksOf_nil]
  | cons r rest ih =>
      intro hu
      have hr : r.length = n := hu r (by simp)
      have hrest : ∀ x ∈ rest, x.length = n := fun x hx => hu x (by simp [hx])
      have hne : r ++ rest.flatten ≠ [] := by
        intro hcontra
        have hre : r = [] := by
          cases r with
          | nil => rfl
          | cons a as => simp at hcontra
        rw [hre] at hr
        simp at hr
        exact hn hr.symm
      rw [List.flatten_cons, chunksOf_cons n _ hne hn]
      rw [List.take_left' hr, List.drop_left' hr, ih hrest]

theorem chunksOf_head_length {α : Type} (n : Nat) (l : List α) (h : n < l.length) (hn : n ≠ 0) :
    chunksOf n l = l.take n :: chunksOf n (l.drop n) ∧ (l.take n).length = n := by
  constructor
  · exact chunksOf_cons n l (by intro hc; subst hc; simp at h) hn
  · simp [List.length_take]; omega

/-- Length of a flattening of equally long pieces. -/
theorem flatten_map_length {α β : Type} (f : α → List β) (c : Nat) :
    ∀ l : List α, (∀ x ∈ l, (f x).length = c) →
      ((l.map f).flatten).length = l.length * c := by
  intro l
  induction l with
  | nil => intro _; simp
  | cons a as ih =>
      intro h
      simp only [List.map_cons, List.flatten_cons, List.length_append,
        h a (by simp), ih (fun x hx => h x (by simp [hx])), List.length_cons]
      ring

/-! ## doom-keys.ts -/

/-- DOOM key codes from doomkeys.h (src/doom-keys.ts, `DoomKeys`). -/
def KEY_RIGHTARROW : Nat := 0xae
def KEY_LEFTARROW : Nat := 0xac
def KEY_UPARROW : Nat := 0xad
def KEY_DOWNARROW : Nat := 0xaf
def KEY_STRAFE_L : Nat := 0xa0
def KEY_STRAFE_R : Nat := 0xa1
def KEY_USE : Nat := 0xa2
def KEY_FIRE : Nat := 0xa3
def KEY_ESCAPE : Nat := 27
def KEY_ENTER : Nat := 13
def KEY_TAB : Nat := 9
def KEY_BACKSPACE : Nat := 127
def KEY_EQUALS : Nat := 0x3d
def KEY_MINUS : Nat := 0x2d

/-- JS string `<` comparison (lexicographic over code units, a proper
shorter string being smaller), used by `data >= "0" && data <= "9"`. -/
def jsLt : List Nat → List Nat → Bool
  | [], [] => false
  | [], _ :: _ => true
  | _ :: _, [] => false
  | a :: as, b :: bs => if a < b then true else if a = b then jsLt as bs else false

/-- First code unit is a control byte: the model of
`data.charCodeAt(0) < 32` (`charCodeAt` of an empty string is NaN and
the comparison is then false). -/
def firstCodeLt32 : List Nat → Bool
  | [] => false
  | c :: _ => decide (c < 32)

/-- ASCII lowercasing of one code unit, the model of
`data.toLowerCase().charCodeAt(0)` for the single-character inputs that
reach the final branch (the inputs of interest are all ASCII). -/
def jsToLower (c : Nat) : Nat := if 65 ≤ c ∧ c ≤ 90 then c + 32 else c

/-- Map terminal key input to DOOM key codes
(src/doom-keys.ts, `mapKeyToDoom`).  The optional `name` parameter is
never supplied by the callers under verification, so `keyName` is the
empty string and the name guards are dropped. -/
def mapKeyToDoom (data : List Nat) : List Nat :=
  if data = [27, 91, 65] then [KEY_UPARROW]
  else if data = [27, 91, 66] then [KEY_DOWNARROW]
  else if data = [27, 91, 67] then [KEY_RIGHTARROW]
  else if data = [27, 91, 68] then [KEY_LEFTARROW]
  else if data = [119] ∨ data = [87] then [KEY_UPARROW]
  else if data = [115] ∨ data = [83] then [KEY_DOWNARROW]
  else if data = [97] ∨ data = [65] then [KEY_STRAFE_L]
  else if data = [100] ∨ data = [68] then [KEY_STRAFE_R]
  else if data = [32] then [KEY_USE]
  else if data = [13] ∨ data = [10] then [KEY_ENTER]
  else if data = [27] then [KEY_ESCAPE]
  else if data = [9] then [KEY_TAB]
  else if data = [127] then [KEY_BACKSPACE]
  else if firstCodeLt32 data ∧ data ≠ [3] then [KEY_FIRE]
  else if ¬ jsLt data [48] ∧ ¬ jsLt [57] data then [data.headD 0]
  else if data = [43] ∨ data = [61] then [KEY_EQUALS]
  else if data = [45] then [KEY_MINUS]
  else if data = [121] ∨ data = [89] then [121]
  else if data = [110] ∨ data = [78] then [110]
  else if data.length = 1 ∧ 32 ≤ data.headD 0 then [jsToLower (data.headD 0)]
  else []

/-- C2: the input translator maps "a" and "A" each to exactly one
occurrence of the strafe-left code 0xa0, ESC [ A to the up-arrow code
0xad, "5" to the character code 53, and the Ctrl+C byte 0x03 (reserved
as quit upstream) to the empty sequence. -/
theorem mapKeyToDoom_spec_values :
    mapKeyToDoom [97] = [0xa0] ∧ mapKeyToDoom [65] = [0xa0] ∧
    mapKeyToDoom [27, 91, 65] = [0xad] ∧ mapKeyToDoom [53] = [53] ∧
    mapKeyToDoom [3] = [] := by decide

theorem ite_length_le_one (c : Prop) [Decidable c] (a b : List Nat)
    (ha : a.length ≤ 1) (hb : b.length ≤ 1) : (if c then a else b).length ≤ 1 := by
  split <;> assumption

/-- C10: for every input token, `mapKeyToDoom` returns at most one key
code — each matched token yields exactly one target code and an
unmatched token yields the empty sequence. -/
theorem mapKeyToDoom_length_le_one (data : List Nat) :
    (mapKeyToDoom data).length ≤ 1 := by
  unfold mapKeyToDoom
  repeat' apply ite_length_le_one
  all_goals simp

/-! ## doom-renderer.ts: PNG encoder (`encodePNG`) -/

theorem set_append_pos (a rest : List Nat) (pos i v : Nat) (h : pos = a.length + i) :
    (a ++ rest).set pos v = a ++ rest.set i v := by
  subst h
  induction a with
  | nil => simp
  | cons x xs ih =>
      simp only [List.cons_append, List.length_cons]
      have : xs.length + 1 + i = (xs.length + i) + 1 := by omega
      rw [this, List.set_cons_succ, ih]

/-- One step of the CRC-32 table generation loop
(`c = c & 1 ? 0xedb88320 ^ (c >>> 1) : c >>> 1` in `encodePNG`). -/
def crcStep (c : Nat) : Nat :=
  if c % 2 = 1 then Nat.xor 0xedb88320 (c / 2) else c / 2

/-- Entry `n` of the CRC table: eight `crcStep` iterations starting at `n`. -/
def crcTableEntry (n : Nat) : Nat := crcStep^[8] n

/-- CRC-32 of a byte list (the `crc32` closure in `encodePNG`).  JS keeps
the running value as a 32-bit pattern; the model keeps the same pattern
as a `Nat` below 2 ^ 32. -/
def crc32 (data : List Nat) : Nat :=
  Nat.xor
    (data.foldl (fun crc b => Nat.xor (crcTableEntry (Nat.xor crc b % 256)) (crc / 256))
      0xffffffff)
    0xffffffff

theorem crcStep_lt (c : Nat) (h : c < 4294967296) : crcStep c < 4294967296 := by
  unfold crcStep
  split
  · have h1 : (0xedb88320 : Nat) < 2 ^ 32 := by norm_num
    have h2 : c / 2 < 2 ^ 32 := by omega
    have := Nat.xor_lt_two_pow h1 h2
    simpa using this
  · omega

theorem crcTableEntry_lt (n : Nat) (h : n < 4294967296) :
    crcTableEntry n < 4294967296 := by
  unfold crcTableEntry
  have : ∀ k m, m < 4294967296 → crcStep^[k] m < 4294967296 := by
    intro k
    induction k with
    | zero => intro m hm; simpa using hm
    | succ j ih =>
        intro m hm
        rw [Function.iterate_succ_apply]
        exact ih _ (crcStep_lt m hm)
  exact this 8 n h

theorem crc32_lt (data : List Nat) : crc32 data < 4294967296 := by
  unfold crc32
  have hfold : ∀ l : List Nat, ∀ crc : Nat, crc < 4294967296 →
      l.foldl (fun crc b => Nat.xor (crcTableEntry (Nat.xor crc b % 256)) (crc / 256)) crc
        < 4294967296 := by
    intro l
    induction l with
    | nil => intro crc h; simpa using h
    | cons b bs ih =>
        intro crc h
        simp only [List.foldl_cons]
        apply ih
        have h1 : crcTableEntry (Nat.xor crc b % 256) < 2 ^ 32 :=
          crcTableEntry_lt _ (by omega)
        have h2 : crc / 256 < 2 ^ 32 := by omega
        have := Nat.xor_lt_two_pow h1 h2
        simpa using this
  have h1 : (List.foldl _ 0xffffffff data) < 2 ^ 32 := hfold data 0xffffffff (by norm_num)
  have h2 : (0xffffffff : Nat) < 2 ^ 32 := by norm_num
  have := Nat.xor_lt_two_pow h1 h2
  simpa using this

/-- Code units of a 4-character chunk type tag (`type.charCodeAt(i)`). -/
def typeBytes (s : String) : List Nat := s.data.map (fun c => c.toNat)

/-- Build a PNG chunk (the `makeChunk` closure in `encodePNG`): allocate
`4 + 4 + data.length + 4` zero bytes, store the big-endian length at 0,
the type tag at 4, the payload at 8, and the big-endian CRC (over a
separately assembled type-plus-payload buffer) at `8 + data.length`. -/
def makeChunk (ty : String) (data : List Nat) : List Nat :=
  let tyb := typeBytes ty
  let n := data.length
  let crcData := setRange (setRange (List.replicate (4 + n) 0) 0 tyb) 4 data
  setRange
    (setRange (setRange (setRange (List.replicate (4 + 4 + n + 4) 0) 0 (be32 n)) 4 tyb)
      8 data)
    (8 + n) (be32 (crc32 crcData))

/-- Layout every chunk must have, per the spec: big-endian 4-byte payload
length, 4-byte type tag, payload, big-endian 4-byte CRC-32 computed over
the type tag and payload bytes. -/
def chunkSpec (tyb data : List Nat) : List Nat :=
  be32 data.length ++ tyb ++ data ++ be32 (crc32 (tyb ++ data))

theorem crcData_eq (tyb data : List Nat) (h4 : tyb.length = 4) :
    setRange (setRange (List.replicate (4 + data.length) 0) 0 tyb) 4 data = tyb ++ data := by
  rw [setRange_zero tyb _ (by simp [h4])]
  rw [h4, List.drop_replicate]
  have hrep : 4 + data.length - 4 = data.length := by omega
  rw [hrep]
  rw [setRange_append_full tyb _ data 4 h4.symm (by simp)]
  simp [List.drop_replicate]

theorem makeChunk_eq (ty : String) (data : List Nat) (h4 : (typeBytes ty).length = 4) :
    makeChunk ty data = chunkSpec (typeBytes ty) data := by
  unfold makeChunk chunkSpec
  simp only []
  rw [crcData_eq (typeBytes ty) data h4]
  have h1 : setRange (List.replicate (4 + 4 + data.length + 4) 0) 0 (be32 data.length)
      = be32 data.length ++ List.replicate (4 + data.length + 4) 0 := by
    rw [setRange_zero _ _ (by simp [be32])]
    rw [be32_length, List.drop_replicate]
    have ha : 4 + 4 + data.length + 4 - 4 = 4 + data.length + 4 := by omega
    rw [ha]
  rw [h1]
  have h2 : setRange (be32 data.length ++ List.replicate (4 + data.length + 4) 0) 4
        (typeBytes ty)
      = be32 data.length ++ typeBytes ty ++ List.replicate (data.length + 4) 0 := by
    rw [setRange_append_full _ _ _ 4 (be32_length data.length).symm
      (by simp [h4])]
    rw [h4, List.drop_replicate]
    have ha : 4 + data.length + 4 - 4 = data.length + 4 := by omega
    rw [ha]
  rw [h2]
  have h3 : setRange ((be32 data.length ++ typeBytes ty) ++ List.replicate (data.length + 4) 0)
        8 data
      = (be32 data.length ++ typeBytes ty) ++ data ++ List.replicate 4 0 := by
    rw [setRange_append_full _ _ _ 8 (by simp [be32, h4]) (by simp)]
    rw [List.drop_replicate]
    have ha : data.length + 4 - data.length = 4 := by omega
    rw [ha]
  rw [h3]
  have h5 : setRange (((be32 data.length ++ typeBytes ty) ++ data) ++ List.replicate 4 0)
        (8 + data.length) (be32 (crc32 (typeBytes ty ++ data)))
      = ((be32 data.length ++ typeBytes ty) ++ data)
          ++ be32 (crc32 (typeBytes ty ++ data)) ++ List.replicate 0 0 := by
    rw [setRange_append_full _ _ _ (8 + data.length) (by simp [be32, h4]; omega)
      (by simp [be32])]
    rw [be32_length, List.drop_replicate]
  rw [h5]
  simp [List.append_assoc]

/-- Fixed 8-byte PNG magic signature. -/
def pngSignature : List Nat := [0x89, 0x50, 0x4e, 0x47, 0x0d, 0x0a, 0x1a, 0x0a]

/-- IHDR payload assembly in `encodePNG`: 13 zero bytes, big-endian width
at 0, big-endian height at 4, then bit depth, color type, compression,
filter and interlace bytes at 8..12. -/
def ihdrBytes (w h : Nat) : List Nat :=
  (((((setRange (setRange (List.replicate 13 0) 0 (be32 w)) 4 (be32 h)).set 8 8).set 9 6).set
    10 0).set 11 0).set 12 0

theorem ihdrBytes_eq (w h : Nat) :
    ihdrBytes w h = be32 w ++ be32 h ++ [8, 6, 0, 0, 0] := by
  unfold ihdrBytes
  have h1 : setRange (List.replicate 13 0) 0 (be32 w)
      = be32 w ++ List.replicate 9 0 := by
    rw [setRange_zero _ _ (by simp [be32])]
    rw [be32_length, List.drop_replicate]
  rw [h1]
  have h2 : setRange (be32 w ++ List.replicate 9 0) 4 (be32 h)
      = be32 w ++ be32 h ++ List.replicate 5 0 := by
    rw [setRange_append_full _ _ _ 4 (be32_length w).symm (by simp [be32])]
    rw [be32_length, List.drop_replicate]
  rw [h2]
  have hlen : (be32 w ++ be32 h).length = 8 := by simp [be32]
  have hrep : (List.replicate 5 0 : List Nat) = [0, 0, 0, 0, 0] := by decide
  rw [hrep]
  rw [set_append_pos _ _ 8 0 8 (by rw [hlen])]
  rw [set_append_pos _ _ 9 1 6 (by rw [hlen])]
  rw [set_append_pos _ _ 10 2 0 (by rw [hlen])]
  rw [set_append_pos _ _ 11 3 0 (by rw [hlen])]
  rw [set_append_pos _ _ 12 4 0 (by rw [hlen])]
  rfl

/-- Four bytes of one pixel copied into the filtered scanline buffer
(`rawData[dstIdx + c] = rgba[srcIdx + c]` with
`srcIdx = (y * width + x) * 4`); out-of-bounds reads default to 0. -/
def pngPixelBytes (rgba : List Nat) (w y x : Nat) : List Nat :=
  [rgba.getD ((y * w + x) * 4) 0, rgba.getD ((y * w + x) * 4 + 1) 0,
   rgba.getD ((y * w + x) * 4 + 2) 0, rgba.getD ((y * w + x) * 4 + 3) 0]

/-- Inner pixel loop of the scanline assembly in `encodePNG`: write the
first `k` pixels of row `y` at `dstIdx = y * (1 + width * 4) + 1 + x * 4`. -/
def rowFoldK (rgba : List Nat) (w y k : Nat) (buf : List Nat) : List Nat :=
  (List.range k).foldl
    (fun b x => setRange b (y * (1 + w * 4) + 1 + x * 4) (pngPixelBytes rgba w y x)) buf

/-- Scanline buffer assembly in `encodePNG`: allocate
`height * (1 + width * 4)` zero bytes and, per row, store the filter
byte 0 at `y * (1 + width * 4)` followed by the row pixels. -/
def rawDataLoop (rgba : List Nat) (w h : Nat) : List Nat :=
  (List.range h).foldl (fun b y => rowFoldK rgba w y w (b.set (y * (1 + w * 4)) 0))
    (List.replicate (h * (1 + w * 4)) 0)

/-- Pixel bytes of one scanline, in row order. -/
def pixelRow (rgba : List Nat) (w y : Nat) : List Nat :=
  ((List.range w).map (pngPixelBytes rgba w y)).flatten

/-- The scanline layout the spec describes: the pixel rows in order, each
prefixed with a one-byte zero filter marker. -/
def rawSpec (rgba : List Nat) (w h : Nat) : List Nat :=
  ((List.range h).map (fun y => 0 :: pixelRow rgba w y)).flatten

theorem pixelRow_length (rgba : List Nat) (w y : Nat) :
    (pixelRow rgba w y).length = w * 4 := by
  unfold pixelRow
  rw [flatten_map_length _ 4 _ (by intro x _; simp [pngPixelBytes])]
  simp

theorem rowFoldK_eq (rgba : List Nat) (w y : Nat) :
    ∀ k (pre : List Nat) (rem : Nat), pre.length = y * (1 + w * 4) + 1 → 4 * k ≤ rem →
      rowFoldK rgba w y k (pre ++ List.replicate rem 0)
        = pre ++ ((List.range k).map (pngPixelBytes rgba w y)).flatten
            ++ List.replicate (rem - 4 * k) 0 := by
  intro k
  induction k with
  | zero => intro pre rem _ _; simp [rowFoldK]
  | succ k ih =>
      intro pre rem hpre hrem
      unfold rowFoldK
      rw [List.range_succ, List.foldl_append]
      have hk : 4 * k ≤ rem := by omega
      have := ih pre rem hpre hk
      unfold rowFoldK at this
      rw [this]
      simp only [List.foldl_cons, List.foldl_nil]
      have hJ : (((List.range k).map (pngPixelBytes rgba w y)).flatten).length = k * 4 := by
        rw [flatten_map_length _ 4 _ (by intro x _; simp [pngPixelBytes])]
        simp
      rw [setRange_append_full _ _ _ (y * (1 + w * 4) + 1 + k * 4)
        (by simp [hJ, hpre]; try omega) (by simp [pngPixelBytes]; try omega)]
      have hpx : (pngPixelBytes rgba w y k).length = 4 := by simp [pngPixelBytes]
      rw [hpx, List.drop_replicate]
      simp only [List.map_append, List.map_cons, List.map_nil, List.flatten_append,
        List.flatten_cons, List.flatten_nil, List.append_nil]
      have : rem - 4 * k - 4 = rem - 4 * (k + 1) := by omega
      rw [this]
      simp [List.append_assoc]

theorem replicate_set_zero (m : Nat) :
    (List.replicate m (0 : Nat)).set 0 0 = List.replicate m 0 := by
  cases m <;> simp [List.replicate_succ]

theorem rawLoop_eq (rgba : List Nat) (w h : Nat) :
    ∀ k, k ≤ h →
      (List.range k).foldl (fun b y => rowFoldK rgba w y w (b.set (y * (1 + w * 4)) 0))
          (List.replicate (h * (1 + w * 4)) 0)
        = ((List.range k).map (fun y => 0 :: pixelRow rgba w y)).flatten
            ++ List.replicate ((h - k) * (1 + w * 4)) 0 := by
  intro k
  induction k with
  | zero => intro _; simp
  | succ k ih =>
      intro hk
      rw [List.range_succ, List.foldl_append]
      rw [ih (by omega)]
      simp only [List.foldl_cons, List.foldl_nil]
      have hrow : ∀ y, ((0 : Nat) :: pixelRow rgba w y).length = 1 + w * 4 := by
        intro y
        simp [pixelRow_length]
        omega
      have hR : (((List.range k).map (fun y => 0 :: pixelRow rgba w y)).flatten).length
          = k * (1 + w * 4) := by
        rw [flatten_map_length _ (1 + w * 4) _ (by intro x _; exact hrow x)]
        simp
      have hge : 1 + w * 4 ≤ (h - k) * (1 + w * 4) := by
        calc 1 + w * 4 = 1 * (1 + w * 4) := by ring
          _ ≤ (h - k) * (1 + w * 4) := Nat.mul_le_mul_right _ (by omega)
      have hsplit : (h - k) * (1 + w * 4) = (1 + w * 4) + (h - (k + 1)) * (1 + w * 4) := by
        have hhk : h - k = 1 + (h - (k + 1)) := by omega
        rw [hhk, Nat.add_mul, Nat.one_mul]
      rw [set_append_pos _ _ (k * (1 + w * 4)) 0 0 (by simp [hR])]
      rw [replicate_set_zero]
      have hbufsplit : ((List.range k).map (fun y => 0 :: pixelRow rgba w y)).flatten
            ++ List.replicate ((h - k) * (1 + w * 4)) 0
          = (((List.range k).map (fun y => 0 :: pixelRow rgba w y)).flatten ++ [0])
            ++ List.replicate ((h - k) * (1 + w * 4) - 1) 0 := by
        have hpos : (h - k) * (1 + w * 4) = ((h - k) * (1 + w * 4) - 1) + 1 := by omega
        conv_lhs => rw [hpos, List.replicate_succ]
        simp
      rw [hbufsplit]
      rw [rowFoldK_eq rgba w k w _ _ (by simp [hR]) (by omega)]
      have hrem : (h - k) * (1 + w * 4) - 1 - 4 * w = (h - (k + 1)) * (1 + w * 4) := by
        omega
      rw [hrem]
      simp [pixelRow, List.append_assoc]

theorem rawDataLoop_eq (rgba : List Nat) (w h : Nat) :
    rawDataLoop rgba w h = rawSpec rgba w h := by
  unfold rawDataLoop rawSpec
  rw [rawLoop_eq rgba w h h le_rfl]
  simp

/-- Final buffer assembly of `encodePNG`: the signature and the three
chunks copied at accumulated offsets into one zero-initialised buffer. -/
theorem setRange_concat4 (a b c d : List Nat) :
    setRange (setRange (setRange (setRange
        (List.replicate (a.length + b.length + c.length + d.length) 0) 0 a)
        a.length b) (a.length + b.length) c) (a.length + b.length + c.length) d
      = a ++ b ++ c ++ d := by
  have h1 : setRange (List.replicate (a.length + b.length + c.length + d.length) 0) 0 a
      = a ++ List.replicate (b.length + c.length + d.length) 0 := by
    rw [setRange_zero _ _ (by simp; omega)]
    rw [List.drop_replicate]
    have ha : a.length + b.length + c.length + d.length - a.length
        = b.length + c.length + d.length := by omega
    rw [ha]
  rw [h1]
  have h2 : setRange (a ++ List.replicate (b.length + c.length + d.length) 0) a.length b
      = a ++ b ++ List.replicate (c.length + d.length) 0 := by
    rw [setRange_append_full _ _ _ a.length rfl (by simp; omega)]
    rw [List.drop_replicate]
    have ha : b.length + c.length + d.length - b.length = c.length + d.length := by omega
    rw [ha]
  rw [h2]
  have h3 : setRange ((a ++ b) ++ List.replicate (c.length + d.length) 0)
        (a.length + b.length) c
      = (a ++ b) ++ c ++ List.replicate d.length 0 := by
    rw [setRange_append_full _ _ _ (a.length + b.length) (by simp) (by simp; try omega)]
    rw [List.drop_replicate]
    have ha : c.length + d.length - c.length = d.length := by omega
    rw [ha]
  rw [h3]
  have h4 : setRange (((a ++ b) ++ c) ++ List.replicate d.length 0)
        (a.length + b.length + c.length) d
      = ((a ++ b) ++ c) ++ d ++ List.replicate 0 0 := by
    rw [setRange_append_full _ _ _ (a.length + b.length + c.length) (by simp; try omega) (by simp)]
    rw [List.drop_replicate]
    have ha : d.length - d.length = 0 := by omega
    rw [ha]
  rw [h4]
  simp

/-- Encode RGBA data as PNG (src/doom-renderer.ts, `encodePNG`); the
deflate compressor (`node:zlib deflateSync`, level 1) is external and is
passed as a function parameter. -/
def encodePNG (deflate : List Nat → List Nat) (rgba : List Nat) (width height : Nat) :
    List Nat :=
  let ihdr := ihdrBytes width height
  let rawData := rawDataLoop rgba width height
  let compressed := deflate rawData
  let ihdrChunk := makeChunk "IHDR" ihdr
  let idatChunk := makeChunk "IDAT" compressed
  let iendChunk := makeChunk "IEND" []
  setRange (setRange (setRange (setRange
    (List.replicate
      (pngSignature.length + ihdrChunk.length + idatChunk.length + iendChunk.length) 0)
    0 pngSignature) pngSignature.length ihdrChunk)
    (pngSignature.length + ihdrChunk.length) idatChunk)
    (pngSignature.length + ihdrChunk.length + idatChunk.length) iendChunk

theorem encodePNG_eq (deflate : List Nat → List Nat) (rgba : List Nat) (w h : Nat) :
    encodePNG deflate rgba w h
      = pngSignature
          ++ chunkSpec (typeBytes "IHDR") (be32 w ++ be32 h ++ [8, 6, 0, 0, 0])
          ++ chunkSpec (typeBytes "IDAT") (deflate (rawSpec rgba w h))
          ++ chunkSpec (typeBytes "IEND") [] := by
  unfold encodePNG
  simp only []
  rw [setRange_concat4]
  rw [makeChunk_eq "IHDR" _ (by decide), makeChunk_eq "IDAT" _ (by decide),
    makeChunk_eq "IEND" _ (by decide)]
  rw [ihdrBytes_eq, rawDataLoop_eq]

/-- C6: for width ≥ 1, height ≥ 1 and an RGBA buffer, the encoder output
is the 8-byte PNG signature followed by exactly three chunks — IHDR
declaring (width, height, bit depth 8, RGBA color type 6, compression 0,
filter 0, interlace 0), IDAT whose payload is the deflate compression of
the pixel rows each prefixed with a zero filter byte, and an empty IEND —
each chunk laid out as big-endian 4-byte length, 4-byte type tag,
payload, and big-endian 4-byte CRC-32 over type tag plus payload
(`chunkSpec`). -/
theorem encodePNG_structure (deflate : List Nat → List Nat) (rgba : List Nat) (w h : Nat)
    (hw : 1 ≤ w) (hh : 1 ≤ h) :
    encodePNG deflate rgba w h
      = pngSignature
          ++ chunkSpec (typeBytes "IHDR") (be32 w ++ be32 h ++ [8, 6, 0, 0, 0])
          ++ chunkSpec (typeBytes "IDAT") (deflate (rawSpec rgba w h))
          ++ chunkSpec (typeBytes "IEND") [] :=
  encodePNG_eq deflate rgba w h

/-- Witness for C6 at width 1, height 1, a single opaque pixel and the
identity in place of the external compressor. -/
theorem encodePNG_structure_witness :
    encodePNG id [1, 2, 3, 4] 1 1
      = pngSignature
          ++ chunkSpec (typeBytes "IHDR") (be32 1 ++ be32 1 ++ [8, 6, 0, 0, 0])
          ++ chunkSpec (typeBytes "IDAT") (id (rawSpec [1, 2, 3, 4] 1 1))
          ++ chunkSpec (typeBytes "IEND") [] :=
  encodePNG_structure id [1, 2, 3, 4] 1 1 (by decide) (by decide)

/-! ## doom-renderer.ts: frame scaler (`scaleDown`) -/

/-- Simple nearest-neighbor downscale (src/doom-renderer.ts, `scaleDown`).
JS computes the scale factor and the floored sample indices in binary
floating point; the model uses exact rational arithmetic for them.  The
destination loop writes the four pixel bytes at `(y * newWidth + x) * 4`,
tiling the output buffer exactly, so the output is assembled as the
row-major flattening of those writes. -/
def scaleDown (rgba : List Nat) (width height maxWidth maxHeight : Nat) :
    List Nat × Nat × Nat :=
  if width ≤ maxWidth ∧ height ≤ maxHeight then (rgba, width, height)
  else
    let scale : ℚ := min ((maxWidth : ℚ) / (width : ℚ)) ((maxHeight : ℚ) / (height : ℚ))
    let newWidth := (⌊(width : ℚ) * scale⌋).toNat
    let newHeight := (⌊(height : ℚ) * scale⌋).toNat
    (((List.range newHeight).map (fun y =>
        let srcY := (⌊(y : ℚ) / scale⌋).toNat
        ((List.range newWidth).map (fun x =>
          let srcX := (⌊(x : ℚ) / scale⌋).toNat
          [rgba.getD ((srcY * width + srcX) * 4) 0,
           rgba.getD ((srcY * width + srcX) * 4 + 1) 0,
           rgba.getD ((srcY * width + srcX) * 4 + 2) 0,
           rgba.getD ((srcY * width + srcX) * 4 + 3) 0])).flatten)).flatten,
      newWidth, newHeight)

/-- C4: whenever the source already fits within the bounds
(`srcW ≤ maxW` and `srcH ≤ maxH`), the scaler returns its input
unchanged: the same pixel buffer and the same dimensions. -/
theorem scaleDown_noop (rgba : List Nat) (w h maxW maxH : Nat)
    (hw : w ≤ maxW) (hh : h ≤ maxH) :
    scaleDown rgba w h maxW maxH = (rgba, w, h) := by
  simp [scaleDown, hw, hh]

/-- Witness for C4 on a concrete 2-by-3 buffer within 5-by-7 bounds. -/
theorem scaleDown_noop_witness :
    scaleDown [9, 8, 7] 2 3 5 7 = ([9, 8, 7], 2, 3) :=
  scaleDown_noop [9, 8, 7] 2 3 5 7 (by decide) (by decide)

/-! ## doom-renderer.ts: half-block renderer (`renderHalfBlock`) -/

/-- ANSI true-color foreground escape. -/
def ansiFg (r g b : Nat) : String :=
  "\x1b[38;2;" ++ toString r ++ ";" ++ toString g ++ ";" ++ toString b ++ "m"

/-- ANSI true-color background escape. -/
def ansiBg (r g b : Nat) : String :=
  "\x1b[48;2;" ++ toString r ++ ";" ++ toString g ++ ";" ++ toString b ++ "m"

/-- One output cell of `renderHalfBlock`: foreground escape for the
sampled top pixel, background escape for the sampled bottom pixel, and
the half-block glyph.  Sample indices mirror the source
(`srcY1 = floor(row * 2 * scaleY)`, `srcY2 = floor((row * 2 + 1) * scaleY)`
with `scaleY = height / (targetRows * 2)`, and
`srcX = floor(col * scaleX)` with `scaleX = width / targetCols`), the
floating-point scaling modelled as exact rational floor division;
out-of-range reads default to 0 as with `rgba[i] ?? 0`. -/
def hbCell (rgba : List Nat) (width height targetCols targetRows row col : Nat) : String :=
  let srcY1 := row * 2 * height / (targetRows * 2)
  let srcY2 := (row * 2 + 1) * height / (targetRows * 2)
  let srcX := col * width / targetCols
  let idx1 := (srcY1 * width + srcX) * 4
  let idx2 := (srcY2 * width + srcX) * 4
  ansiFg (rgba.getD idx1 0) (rgba.getD (idx1 + 1) 0) (rgba.getD (idx1 + 2) 0)
    ++ ansiBg (rgba.getD idx2 0) (rgba.getD (idx2 + 1) 0) (rgba.getD (idx2 + 2) 0)
    ++ "▀"

/-- Render frame using half-block characters
(src/doom-renderer.ts, `renderHalfBlock`): per output row, fold the
per-column cell strings onto the line and append the color reset. -/
def renderHalfBlock (rgba : List Nat) (width height targetCols targetRows : Nat) :
    List String :=
  (List.range targetRows).map (fun row =>
    ((List.range targetCols).foldl
      (fun line col => line ++ hbCell rgba width height targetCols targetRows row col) "")
    ++ "\x1b[0m")

theorem string_data_append (a b : String) : (a ++ b).data = a.data ++ b.data := rfl

theorem foldl_append_data {α : Type} (f : α → String) (l : List α) :
    ∀ s : String, l.foldl (fun acc x => acc ++ f x) s
      = ⟨s.data ++ (l.map (fun x => (f x).data)).flatten⟩ := by
  induction l with
  | nil => intro s; simp
  | cons a as ih =>
      intro s
      simp only [List.foldl_cons, List.map_cons, List.flatten_cons]
      rw [ih (s ++ f a)]
      congr 1
      rw [string_data_append]
      simp [List.append_assoc]

/-- C3: for every RGBA buffer and every target geometry, `renderHalfBlock`
returns exactly `targetRows` rows; each row is the concatenation of
exactly `targetCols` cells followed by exactly one color-reset sequence,
and each cell is a truecolor foreground escape, a truecolor background
escape, and one half-block glyph. -/
theorem renderHalfBlock_shape (rgba : List Nat) (width height targetCols targetRows : Nat) :
    (renderHalfBlock rgba width height targetCols targetRows).length = targetRows ∧
    renderHalfBlock rgba width height targetCols targetRows
      = (List.range targetRows).map (fun row =>
          String.mk
            (((List.range targetCols).map
                (fun col => (hbCell rgba width height targetCols targetRows row col).data)).flatten
              ++ ("\x1b[0m").data)) ∧
    ∀ row col, ∃ r1 g1 b1 r2 g2 b2,
      hbCell rgba width height targetCols targetRows row col
        = ansiFg r1 g1 b1 ++ ansiBg r2 g2 b2 ++ "▀" := by
  refine ⟨by simp [renderHalfBlock], ?_, ?_⟩
  · unfold renderHalfBlock
    apply List.map_congr_left
    intro row _
    rw [foldl_append_data]
    rfl
  · intro row col
    exact ⟨_, _, _, _, _, _, rfl⟩

/-! ## doom-renderer.ts: kitty graphics renderer (`renderKitty`) -/

/-- Standard base64 alphabet. -/
def base64Alphabet : List Char :=
  "ABCDEFGHIJKLMNOPQRSTUVWXYZabcdefghijklmnopqrstuvwxyz0123456789+/".data

def b64Char (n : Nat) : Char := base64Alphabet.getD n 'A'

/-- Standard base64 with padding, the model of
`Buffer.from(png).toString("base64")`. -/
def base64Encode : List Nat → List Char
  | [] => []
  | [a] => [b64Char (a / 4), b64Char (a % 4 * 16), '=', '=']
  | [a, b] => [b64Char (a / 4), b64Char (a % 4 * 16 + b / 16), b64Char (b % 16 * 4), '=']
  | a :: b :: c :: rest =>
      b64Char (a / 4) :: b64Char (a % 4 * 16 + b / 16) :: b64Char (b % 16 * 4 + c / 64)
        :: b64Char (c % 64) :: base64Encode rest

/-- Display parameters of the first kitty escape sequence:
`a=T,f=100,q=2,c=<cols>,r=<rows>`. -/
def kittyParams (targetCols targetRows : Nat) : List Char :=
  ("a=T,f=100,q=2,c=" ++ toString targetCols ++ ",r=" ++ toString targetRows).data

/-- One kitty graphics escape sequence `ESC _G <params> ; <payload> ESC \`. -/
def gSeq (params payload : List Char) : List Char :=
  '\x1b' :: '_' :: 'G' :: (params ++ [';'] ++ payload ++ ['\x1b', '\\'])

/-- The chunked-emission loop of `renderKitty` (offset walking in steps of
`CHUNK_SIZE = 4096`, `isFirst` cleared after the first chunk,
`isLast` when at most one chunk of payload remains). -/
def kittyLoop (params : List Char) (isFirst : Bool) (rest : List Char) :
    List (List Char) :=
  if h : rest = [] then []
  else
    (if isFirst then gSeq (params ++ (",m=1").data) (rest.take 4096)
     else if rest.length ≤ 4096 then gSeq (("m=0").data) (rest.take 4096)
     else gSeq (("m=1").data) (rest.take 4096))
      :: kittyLoop params false (rest.drop 4096)
termination_by rest.length
decreasing_by
  simp only [List.length_drop]
  have : 0 < rest.length := List.length_pos.mpr h
  omega

/-- Emission step of `renderKitty` given the base64 payload: a single
sequence when the payload fits in one 4096-character transmission unit,
otherwise the joined chunk sequences. -/
def kittyEmit (targetCols targetRows : Nat) (b64 : List Char) : List Char :=
  let params := kittyParams targetCols targetRows
  if b64.length ≤ 4096 then gSeq params b64
  else (kittyLoop params true b64).flatten

/-- Render frame using the kitty graphics protocol
(src/doom-renderer.ts, `renderKitty`): scale to the approximate pixel
budget (10 by 20 pixels per cell), PNG-encode, base64-encode, emit. -/
def renderKitty (deflate : List Nat → List Nat) (rgba : List Nat)
    (width height targetCols targetRows : Nat) : List Char :=
  let sc := scaleDown rgba width height (targetCols * 10) (targetRows * 20)
  kittyEmit targetCols targetRows (base64Encode (encodePNG deflate sc.1 sc.2.1 sc.2.2))

/-- Spec-side tagging of the continuation chunks: every middle chunk
carries only `m=1`, the final chunk carries `m=0`. -/
def tagTail : List (List Char) → List (List Char)
  | [] => []
  | [p] => [gSeq (("m=0").data) p]
  | p :: q :: rest => gSeq (("m=1").data) p :: tagTail (q :: rest)

/-- Spec-side chunk sequence: the first chunk carries the display
parameters plus `m=1`, the rest are tagged by `tagTail`. -/
def kittySpec (params : List Char) : List (List Char) → List (List Char)
  | [] => []
  | p :: rest => gSeq (params ++ (",m=1").data) p :: tagTail rest

theorem kittyLoop_nil (params : List Char) (isFirst : Bool) :
    kittyLoop params isFirst [] = [] := by
  unfold kittyLoop
  simp

theorem kittyLoop_cons (params : List Char) (isFirst : Bool) (rest : List Char)
    (h : rest ≠ []) :
    kittyLoop params isFirst rest
      = (if isFirst then gSeq (params ++ (",m=1").data) (rest.take 4096)
         else if rest.length ≤ 4096 then gSeq (("m=0").data) (rest.take 4096)
         else gSeq (("m=1").data) (rest.take 4096))
          :: kittyLoop params false (rest.drop 4096) := by
  conv_lhs => rw [kittyLoop.eq_def]
  simp [h]

theorem kittyLoop_false_eq (params : List Char) :
    ∀ rest : List Char, rest ≠ [] →
      kittyLoop params false rest = tagTail (chunksOf 4096 rest) := by
  have H : ∀ len, ∀ rest : List Char, rest.length ≤ len → rest ≠ [] →
      kittyLoop params false rest = tagTail (chunksOf 4096 rest) := by
    intro len
    induction len with
    | zero =>
        intro rest hl hne
        exact absurd (List.eq_nil_of_length_eq_zero (by omega)) hne
    | succ m ih =>
        intro rest hl hne
        rw [kittyLoop_cons params false rest hne]
        rw [chunksOf_cons 4096 rest hne (by omega)]
        by_cases hle : rest.length ≤ 4096
        · have hdrop : rest.drop 4096 = [] := List.drop_eq_nil_of_le hle
          rw [hdrop, kittyLoop_nil, chunksOf_nil]
          simp [tagTail, hle]
        · have hdrop : rest.drop 4096 ≠ [] := by
            intro hc
            have := List.drop_eq_nil_iff.mp hc
            omega
          have hlen2 : (rest.drop 4096).length ≤ m := by
            simp only [List.length_drop]
            have : 0 < rest.length := List.length_pos.mpr hne
            omega
          rw [ih (rest.drop 4096) hlen2 hdrop]
          rw [chunksOf_cons 4096 (rest.drop 4096) hdrop (by omega)]
          simp only [tagTail, hle]
          simp [hle]
  exact fun rest => H rest.length rest le_rfl

theorem chunksOf_dropLast_full {α : Type} (n : Nat) (hn : n ≠ 0) :
    ∀ l : List α, ∀ p ∈ (chunksOf n l).dropLast, p.length = n := by
  have H : ∀ len, ∀ l : List α, l.length ≤ len →
      ∀ p ∈ (chunksOf n l).dropLast, p.length = n := by
    intro len
    induction len with
    | zero =>
        intro l hl p hp
        have : l = [] := List.eq_nil_of_length_eq_zero (by omega)
        subst this
        simp [chunksOf_nil] at hp
    | succ m ih =>
        intro l hl p hp
        by_cases hne : l = []
        · subst hne; simp [chunksOf_nil] at hp
        · rw [chunksOf_cons n l hne hn] at hp
          by_cases hdrop : l.drop n = []
          · rw [hdrop, chunksOf_nil] at hp
            simp at hp
          · have hcons : chunksOf n (l.drop n) ≠ [] := by
              rw [chunksOf_cons n (l.drop n) hdrop hn]
              simp
            rw [List.dropLast_cons_of_ne_nil hcons] at hp
            rcases List.mem_cons.mp hp with hp1 | hp2
            · subst hp1
              have : n < l.length := by
                by_contra hc
                exact hdrop (List.drop_eq_nil_of_le (by omega))
              simp [List.length_take]
              omega
            · have hpos : 0 < l.length := List.length_pos.mpr hne
              exact ih (l.drop n) (by simp only [List.length_drop]; omega) p hp2
  exact fun l => H l.length l le_rfl

theorem chunksOf_piece_bounds {α : Type} (n : Nat) (hn : n ≠ 0) :
    ∀ l : List α, ∀ p ∈ chunksOf n l, p.length ≤ n ∧ p ≠ [] := by
  have H : ∀ len, ∀ l : List α, l.length ≤ len →
      ∀ p ∈ chunksOf n l, p.length ≤ n ∧ p ≠ [] := by
    intro len
    induction len with
    | zero =>
        intro l hl p hp
        have : l = [] := List.eq_nil_of_length_eq_zero (by omega)
        subst this
        simp [chunksOf_nil] at hp
    | succ m ih =>
        intro l hl p hp
        by_cases hne : l = []
        · subst hne; simp [chunksOf_nil] at hp
        · rw [chunksOf_cons n l hne hn] at hp
          rcases List.mem_cons.mp hp with hp1 | hp2
          · subst hp1
            constructor
            · simp [List.length_take]
            · cases l with
              | nil => exact absurd rfl hne
              | cons a as =>
                  cases n with
                  | zero => exact absurd rfl hn
                  | succ k => simp
          · have hpos : 0 < l.length := List.length_pos.mpr hne
            exact ih (l.drop n) (by simp only [List.length_drop]; omega) p hp2
  exact fun l => H l.length l le_rfl

/-- C5: if the base64 payload fits in 4096 characters the kitty renderer
emits exactly one `ESC _G a=T,f=100,q=2,c=<cols>,r=<rows> ; <payload> ESC \`
sequence; a longer payload is split into consecutive 4096-character
chunks (the last possibly shorter but nonempty) where the first sequence
carries the display parameters plus `m=1`, middle sequences carry only
`m=1`, the final sequence carries `m=0`, and the chunk payloads
concatenate in order back to the full payload.  The last conjunct ties
`renderKitty` to this emission step on the base64-encoded PNG of the
scaled frame. -/
theorem renderKitty_chunking (targetCols targetRows : Nat) (b64 : List Char)
    (deflate : List Nat → List Nat) (rgba : List Nat) (width height : Nat) :
    (b64.length ≤ 4096 →
        kittyEmit targetCols targetRows b64 = gSeq (kittyParams targetCols targetRows) b64)
    ∧ (4096 < b64.length →
        kittyEmit targetCols targetRows b64
            = (kittySpec (kittyParams targetCols targetRows) (chunksOf 4096 b64)).flatten
          ∧ (chunksOf 4096 b64).flatten = b64
          ∧ (∀ p ∈ (chunksOf 4096 b64).dropLast, p.length = 4096)
          ∧ (∀ p ∈ chunksOf 4096 b64, p.length ≤ 4096 ∧ p ≠ []))
    ∧ renderKitty deflate rgba width height targetCols targetRows
        = kittyEmit targetCols targetRows
            (base64Encode (encodePNG deflate
              (scaleDown rgba width height (targetCols * 10) (targetRows * 20)).1
              (scaleDown rgba width height (targetCols * 10) (targetRows * 20)).2.1
              (scaleDown rgba width height (targetCols * 10) (targetRows * 20)).2.2)) := by
  refine ⟨?_, ?_, rfl⟩
  · intro hle
    simp [kittyEmit, hle]
  · intro hgt
    have hne : b64 ≠ [] := by
      intro hc
      subst hc
      simp at hgt
    have hfit : ¬ b64.length ≤ 4096 := by omega
    refine ⟨?_, chunksOf_flatten 4096 (by omega) b64,
      chunksOf_dropLast_full 4096 (by omega) b64,
      chunksOf_piece_bounds 4096 (by omega) b64⟩
    simp only [kittyEmit, hfit, if_false]
    rw [kittyLoop_cons _ true b64 hne]
    have hdrop : b64.drop 4096 ≠ [] := by
      intro hc
      have := List.drop_eq_nil_iff.mp hc
      omega
    rw [kittyLoop_false_eq _ (b64.drop 4096) hdrop]
    rw [chunksOf_cons 4096 b64 hne (by omega)]
    simp [kittySpec]

/-- Witness for C5: a 4097-character payload is split, payloads rejoin,
and a short payload gives the single-sequence form. -/
theorem renderKitty_chunking_witness :
    (chunksOf 4096 (List.replicate 4097 'A')).flatten = List.replicate 4097 'A'
    ∧ kittyEmit 3 2 ['B'] = gSeq (kittyParams 3 2) ['B'] := by
  constructor
  · exact ((renderKitty_chunking 3 2 (List.replicate 4097 'A') id [] 0 0).2.1
      (by simp only [List.length_replicate]; omega)).2.1
  · exact (renderKitty_chunking 3 2 ['B'] id [] 0 0).1 (by simp)

/-! ## src/index.ts: `DoomComponent`

The component is modelled as an explicit state record.  Timer handles
become data: the tick interval is a flag, and each pending synthetic
key-release (`setTimeout(.., 150)`) is an entry `(token, fireTime, keys)`
of the key-state table.  `engine.pushKey` calls are traced in `events`.
`advanceTo t` plays the JS event loop up to virtual time `t`: it fires
every due release timer in schedule order. -/

/-- One `engine.pushKey(pressed, key)` call, with the virtual time at
which it happens. -/
structure KeyEv where
  down : Bool
  key : Nat
  time : Nat
  deriving DecidableEq, Repr

/-- State of `DoomComponent` (src/index.ts): render mode, the external
engine's frame and dimensions, the tick-interval flag, the key-state
table, the pushKey trace, the onClose flag, and the render cache. -/
structure Component where
  modeKitty : Bool
  engineFrame : List Nat
  engineW : Nat
  engineH : Nat
  interval : Bool
  keyStates : List (List Nat × Nat × List Nat)
  events : List KeyEv
  closed : Bool
  cachedLines : List String
  cachedWidth : Int
  cachedHeight : Int
  version : Int
  cachedVersion : Int
  deriving DecidableEq

/-- Constructor state: `cachedWidth = 0`, `cachedHeight = 0`,
`version = 0`, `cachedVersion = -1`, empty key-state table, and the game
loop started (`interval` set). -/
def initialComponent (modeKitty : Bool) (frame : List Nat) (w h : Nat) : Component :=
  { modeKitty := modeKitty, engineFrame := frame, engineW := w, engineH := h,
    interval := true, keyStates := [], events := [], closed := false,
    cachedLines := [], cachedWidth := 0, cachedHeight := 0,
    version := 0, cachedVersion := -1 }

/-- Drop the table entry of `k` (the effect of `clearTimeout` on the
pending release plus `keyStates.delete` / the replacement by
`keyStates.set`). -/
def removeKey (k : List Nat) (l : List (List Nat × Nat × List Nat)) :
    List (List Nat × Nat × List Nat) :=
  l.filter (fun e => decide (e.1 ≠ k))

/-- `dispose()` (src/index.ts): clear the tick interval, cancel every
pending key-release timer and clear the key-state table. -/
def dispose (s : Component) : Component :=
  { s with interval := false, keyStates := [] }

/-- `handleInput(data)` at virtual time `t` (src/index.ts): Ctrl+C / q / Q
dispose and close; otherwise translate the token, ignore it when the
translation is empty, else cancel any pending release timer for the
token, push a press per translated key, and schedule a release at
`t + 150`. -/
def handleInput (t : Nat) (data : List Nat) (s : Component) : Component :=
  if data = [3] ∨ data = [113] ∨ data = [81] then
    { dispose s with closed := true }
  else
    let doomKeys := mapKeyToDoom data
    if doomKeys = [] then s
    else
      { s with
        keyStates := (data, t + 150, doomKeys) :: removeKey data s.keyStates,
        events := s.events ++ doomKeys.map (fun k => { down := true, key := k, time := t }) }

/-- Firing of one scheduled release timer: push a release per key of the
entry and delete the entry from the table. -/
def fireEntry (e : List Nat × Nat × List Nat) (s : Component) : Component :=
  { s with
    keyStates := removeKey e.1 s.keyStates,
    events := s.events ++ e.2.2.map (fun k => { down := false, key := k, time := e.2.1 }) }

/-- Play the event loop to virtual time `t`: fire every release timer
due at or before `t`, in schedule order. -/
def advanceTo (t : Nat) (s : Component) : Component :=
  ((s.keyStates.filter (fun e => decide (e.2.1 ≤ t))).insertionSort
      (fun a b => a.2.1 ≤ b.2.1)).foldl
    (fun st e => fireEntry e st) s

/-- One tick of the game loop: the engine advances (producing a new
frame, externally) and the frame version is incremented. -/
def tick (newFrame : List Nat) (s : Component) : Component :=
  { s with version := s.version + 1, engineFrame := newFrame }

/-- Controls footer appended to every rendered frame. -/
def footer : String :=
  "\x1b[2m DOOM | Q/Ctrl+C=Quit | WASD/Arrows=Move | Space=Use | Ctrl=Fire | 1-7=Weapons\x1b[0m"

/-- Body of the cache-miss branch of `render`: kitty mode emits
`height - 1` empty lines and then cursor-up plus the kitty sequence;
half-block mode delegates to `renderHalfBlock`.  Geometry is `Int`
because `this.tui.height - 2` can be negative in JS; a JS `for` loop
with a negative bound runs zero iterations, which `Int.toNat` models. -/
def computeLines (deflate : List Nat → List Nat) (s : Component) (width height : Int) :
    List String :=
  if s.modeKitty then
    let seq := renderKitty deflate s.engineFrame s.engineW s.engineH width.toNat height.toNat
    let moveUp : String :=
      if 1 < height then "\x1b[" ++ toString (height - 1) ++ "A" else ""
    (List.replicate (height - 1).toNat "") ++ [moveUp ++ String.mk seq]
  else
    renderHalfBlock s.engineFrame s.engineW s.engineH width.toNat height.toNat

/-- `render(width)` with the host height supplied (src/index.ts): compute
`height = hostH - 2`; when the width, height and frame version all match
the cache, return the cached lines; otherwise recompute, append the
footer, cache, and return. -/
def renderStep (deflate : List Nat → List Nat) (s : Component) (width hostH : Int) :
    List String × Component :=
  let height := hostH - 2
  if width = s.cachedWidth ∧ height = s.cachedHeight ∧ s.cachedVersion = s.version then
    (s.cachedLines, s)
  else
    let lines := computeLines deflate s width height ++ [footer]
    (lines,
      { s with cachedLines := lines, cachedWidth := width, cachedHeight := height,
               cachedVersion := s.version })

/-- `invalidate()` (src/index.ts): reset the cached geometry. -/
def invalidate (s : Component) : Component :=
  { s with cachedWidth := 0, cachedHeight := 0 }

theorem mapKeyToDoom_w : mapKeyToDoom [119] = [KEY_UPARROW] := by decide

/-- C9: `dispose` is idempotent — the second call changes nothing — and
any single call clears the tick interval and every outstanding
key-release timer before returning, leaving the key-state table empty
(so no release can fire afterwards) and pushing no event. -/
theorem dispose_spec (s : Component) (t : Nat) :
    dispose (dispose s) = dispose s
    ∧ (dispose s).keyStates = []
    ∧ (dispose s).interval = false
    ∧ (dispose s).events = s.events
    ∧ advanceTo t (dispose s) = dispose s := by
  refine ⟨rfl, rfl, rfl, rfl, ?_⟩
  simp [advanceTo, dispose, List.insertionSort]

/-- C1 counterexample to the claim as stated: delivering token "w" at
times 0, 100 and 200 (each within 150ms of the previous) pushes three
press events to the engine, not exactly one; exactly one release still
fires 150ms after the last delivery. -/
theorem handleInput_three_presses :
    ((advanceTo 350 (handleInput 200 [119] (advanceTo 200 (handleInput 100 [119]
          (advanceTo 100 (handleInput 0 [119]
            (initialComponent false [] 2 2))))))).events.filter
        (fun e => e.down)).length = 3
    ∧ ¬ ((advanceTo 350 (handleInput 200 [119] (advanceTo 200 (handleInput 100 [119]
          (advanceTo 100 (handleInput 0 [119]
            (initialComponent false [] 2 2))))))).events.filter
        (fun e => e.down)).length = 1 := by
  decide

/-- C1 (amended): delivering the token "w" three times, each arrival
before the pending release fires, pushes one press per delivery (three
presses in total), cancels the pending release timer on each re-arrival
and schedules a fresh one (the key-state table always holds exactly one
entry for the token, carrying the fresh fire time), and, absent further
input, fires exactly one release, 150ms after the last delivery. -/
theorem handleInput_coalesce (mk : Bool) (fr : List Nat) (ew eh : Nat)
    (t0 t1 t2 : Nat) (h01 : t1 < t0 + 150) (h12 : t2 < t1 + 150) :
    (handleInput t0 [119] (initialComponent mk fr ew eh)).keyStates
        = [([119], t0 + 150, [KEY_UPARROW])]
    ∧ advanceTo t1 (handleInput t0 [119] (initialComponent mk fr ew eh))
        = handleInput t0 [119] (initialComponent mk fr ew eh)
    ∧ (handleInput t1 [119] (advanceTo t1 (handleInput t0 [119]
          (initialComponent mk fr ew eh)))).keyStates
        = [([119], t1 + 150, [KEY_UPARROW])]
    ∧ (advanceTo (t2 + 150) (handleInput t2 [119] (advanceTo t2 (handleInput t1 [119]
          (advanceTo t1 (handleInput t0 [119] (initialComponent mk fr ew eh))))))).events
        = [⟨true, KEY_UPARROW, t0⟩, ⟨true, KEY_UPARROW, t1⟩, ⟨true, KEY_UPARROW, t2⟩,
           ⟨false, KEY_UPARROW, t2 + 150⟩]
    ∧ (advanceTo (t2 + 150) (handleInput t2 [119] (advanceTo t2 (handleInput t1 [119]
          (advanceTo t1 (handleInput t0 [119] (initialComponent mk fr ew eh))))))).keyStates
        = [] := by
  have hA : handleInput t0 [119] (initialComponent mk fr ew eh)
      = { modeKitty := mk, engineFrame := fr, engineW := ew, engineH := eh,
          interval := true, keyStates := [([119], t0 + 150, [KEY_UPARROW])],
          events := [⟨true, KEY_UPARROW, t0⟩], closed := false,
          cachedLines := [], cachedWidth := 0, cachedHeight := 0,
          version := 0, cachedVersion := -1 } := by
    simp [handleInput, mapKeyToDoom_w, removeKey, initialComponent]
  have hAdv1 : advanceTo t1 (handleInput t0 [119] (initialComponent mk fr ew eh))
      = handleInput t0 [119] (initialComponent mk fr ew eh) := by
    rw [hA]
    simp [advanceTo, decide_eq_false (show ¬ (t0 + 150 ≤ t1) by omega)]
  have hB : handleInput t1 [119] (advanceTo t1 (handleInput t0 [119]
        (initialComponent mk fr ew eh)))
      = { modeKitty := mk, engineFrame := fr, engineW := ew, engineH := eh,
          interval := true, keyStates := [([119], t1 + 150, [KEY_UPARROW])],
          events := [⟨true, KEY_UPARROW, t0⟩, ⟨true, KEY_UPARROW, t1⟩], closed := false,
          cachedLines := [], cachedWidth := 0, cachedHeight := 0,
          version := 0, cachedVersion := -1 } := by
    rw [hAdv1, hA]
    simp [handleInput, mapKeyToDoom_w, removeKey]
  have hAdv2 : advanceTo t2 (handleInput t1 [119] (advanceTo t1 (handleInput t0 [119]
        (initialComponent mk fr ew eh))))
      = handleInput t1 [119] (advanceTo t1 (handleInput t0 [119]
          (initialComponent mk fr ew eh))) := by
    rw [hB]
    simp [advanceTo, decide_eq_false (show ¬ (t1 + 150 ≤ t2) by omega)]
  have hC : handleInput t2 [119] (advanceTo t2 (handleInput t1 [119] (advanceTo t1
        (handleInput t0 [119] (initialComponent mk fr ew eh)))))
      = { modeKitty := mk, engineFrame := fr, engineW := ew, engineH := eh,
          interval := true, keyStates := [([119], t2 + 150, [KEY_UPARROW])],
          events := [⟨true, KEY_UPARROW, t0⟩, ⟨true, KEY_UPARROW, t1⟩,
                     ⟨true, KEY_UPARROW, t2⟩],
          closed := false, cachedLines := [], cachedWidth := 0, cachedHeight := 0,
          version := 0, cachedVersion := -1 } := by
    rw [hAdv2, hB]
    simp [handleInput, mapKeyToDoom_w, removeKey]
  refine ⟨by rw [hA], hAdv1, by rw [hB], ?_, ?_⟩
  · rw [hC]
    simp [advanceTo, decide_eq_true (show t2 + 150 ≤ t2 + 150 from le_rfl),
      List.insertionSort, List.orderedInsert, fireEntry, removeKey]
  · rw [hC]
    simp [advanceTo, decide_eq_true (show t2 + 150 ≤ t2 + 150 from le_rfl),
      List.insertionSort, List.orderedInsert, fireEntry, removeKey]

/-- Witness for C1 (amended) at delivery times 0, 100, 200. -/
theorem handleInput_coalesce_witness :
    (advanceTo (200 + 150) (handleInput 200 [119] (advanceTo 200 (handleInput 100 [119]
        (advanceTo 100 (handleInput 0 [119] (initialComponent false [] 2 2))))))).events
      = [⟨true, KEY_UPARROW, 0⟩, ⟨true, KEY_UPARROW, 100⟩, ⟨true, KEY_UPARROW, 200⟩,
         ⟨false, KEY_UPARROW, 200 + 150⟩] :=
  (handleInput_coalesce false [] 2 2 0 100 200 (by decide) (by decide)).2.2.2.1

/-- C8: a second `render` with the same width and host height and no
intervening tick returns the identical cached result and leaves the
state unchanged; a tick in between (incrementing the frame version), or
a width or host-height differing from the cached geometry, makes the
second call recompute (fresh `computeLines` plus footer) instead of
returning the cache. -/
theorem renderStep_hit (deflate : List Nat → List Nat) (s : Component) (w hh : Int)
    (h1 : w = s.cachedWidth) (h2 : hh - 2 = s.cachedHeight)
    (h3 : s.cachedVersion = s.version) :
    renderStep deflate s w hh = (s.cachedLines, s) := by
  simp only [renderStep]
  rw [if_pos ⟨h1, h2, h3⟩]

theorem renderStep_miss (deflate : List Nat → List Nat) (s : Component) (w hh : Int)
    (h : ¬ (w = s.cachedWidth ∧ hh - 2 = s.cachedHeight ∧ s.cachedVersion = s.version)) :
    renderStep deflate s w hh
      = (computeLines deflate s w (hh - 2) ++ [footer],
         { s with cachedLines := computeLines deflate s w (hh - 2) ++ [footer],
                  cachedWidth := w, cachedHeight := hh - 2,
                  cachedVersion := s.version }) := by
  simp only [renderStep]
  rw [if_neg h]

theorem renderStep_cache (deflate : List Nat → List Nat) (s : Component)
    (w hh : Int) (nf : List Nat) (w2 hh2 : Int) :
    renderStep deflate (renderStep deflate s w hh).2 w hh = renderStep deflate s w hh
    ∧ (renderStep deflate (tick nf (renderStep deflate s w hh).2) w hh).1
        = computeLines deflate (tick nf (renderStep deflate s w hh).2) w (hh - 2)
            ++ [footer]
    ∧ (w2 ≠ w ∨ hh2 ≠ hh →
        (renderStep deflate (renderStep deflate s w hh).2 w2 hh2).1
          = computeLines deflate (renderStep deflate s w hh).2 w2 (hh2 - 2)
              ++ [footer]) := by
  have hprops : (renderStep deflate s w hh).2.cachedWidth = w
      ∧ (renderStep deflate s w hh).2.cachedHeight = hh - 2
      ∧ (renderStep deflate s w hh).2.cachedVersion = (renderStep deflate s w hh).2.version
      ∧ (renderStep deflate s w hh).2.cachedLines = (renderStep deflate s w hh).1 := by
    by_cases hcond : w = s.cachedWidth ∧ hh - 2 = s.cachedHeight
        ∧ s.cachedVersion = s.version
    · obtain ⟨h1, h2, h3⟩ := hcond
      rw [renderStep_hit deflate s w hh h1 h2 h3]
      exact ⟨h1.symm, h2.symm, h3, rfl⟩
    · rw [renderStep_miss deflate s w hh hcond]
      exact ⟨rfl, rfl, rfl, rfl⟩
  obtain ⟨hw, hht, hv, hl⟩ := hprops
  refine ⟨?_, ?_, ?_⟩
  · rw [renderStep_hit deflate _ w hh hw.symm hht.symm hv, hl]
  · rw [renderStep_miss deflate _ w hh ?_]
    · intro hc
      have h3 := hc.2.2
      simp only [tick] at h3
      omega
  · intro hne
    rw [renderStep_miss deflate _ w2 hh2 ?_]
    · intro hc
      obtain ⟨h1, h2, _⟩ := hc
      rw [hw] at h1
      rw [hht] at h2
      rcases hne with hne | hne
      · exact hne h1
      · exact hne (by omega)

/-- Witness for C8 at a concrete component, width 80 and host height 24,
with a geometry change to width 81. -/
theorem renderStep_cache_witness :
    (renderStep id ((renderStep id (initialComponent false [] 2 2) 80 24).2) 81 24).1
      = computeLines id ((renderStep id (initialComponent false [] 2 2) 80 24).2)
          81 ((24 : Int) - 2) ++ [footer] :=
  (renderStep_cache id (initialComponent false [] 2 2) 80 24 [] 81 24).2.2
    (Or.inl (by decide))

/-! ## A standard PNG decoder, for the round-trip claim -/

/-- Modelled from the spec: the chunk walk of a standard-compliant PNG
decoder ("each block is length-prefixed, type-tagged, and checksummed
with a standard 32-bit cyclic redundancy check computed over the type
tag and payload bytes, big-endian length and checksum fields"): read the
big-endian length, the 4-byte type tag and the payload, verify the CRC,
and continue after the chunk.  `fuel` bounds the walk; it only needs to
exceed the chunk count. -/
def parseChunks : Nat → List Nat → Option (List (List Nat × List Nat))
  | 0, _ => none
  | fuel + 1, l =>
      if l = [] then some []
      else
        let len := readBE32 l
        if 12 + len ≤ l.length then
          let ty := (l.drop 4).take 4
          let data := (l.drop 8).take len
          if readBE32 (l.drop (8 + len)) = crc32 (ty ++ data) then
            match parseChunks fuel (l.drop (12 + len)) with
            | some rest => some ((ty, data) :: rest)
            | none => none
          else none
        else none

/-- Modelled from the spec: a standard-compliant PNG decoder restricted
to the stream profile the encoder emits (8-bit-per-channel RGBA, filter
type 0 on every scanline, no interlace, one IDAT chunk).  It checks the
magic signature, walks the checksummed chunks, validates the header
fields, inflates the IDAT payload with the supplied `inflate`, checks
and strips the per-row zero filter byte, and returns width, height and
the pixel bytes. -/
def decodePNG (inflate : List Nat → List Nat) (png : List Nat) :
    Option (Nat × Nat × List Nat) :=
  if png.take 8 = pngSignature then
    match parseChunks png.length (png.drop 8) with
    | some [(ty1, ihdr), (ty2, idat), (ty3, iend)] =>
        if ty1 = typeBytes "IHDR" ∧ ty2 = typeBytes "IDAT" ∧ ty3 = typeBytes "IEND"
            ∧ iend = [] ∧ ihdr.length = 13 ∧ ihdr.getD 8 0 = 8 ∧ ihdr.getD 9 0 = 6
            ∧ ihdr.getD 10 0 = 0 ∧ ihdr.getD 11 0 = 0 ∧ ihdr.getD 12 0 = 0 then
          let w := readBE32 ihdr
          let h := readBE32 (ihdr.drop 4)
          let raw := inflate idat
          if raw.length = h * (1 + w * 4) then
            let rows := chunksOf (1 + w * 4) raw
            if rows.all (fun r => r.headD 1 = 0) then
              some (w, h, (rows.map (fun r => r.tail)).flatten)
            else none
          else none
        else none
    | _ => none
  else none

theorem parseChunks_chunkSpec (fuel : Nat) (tyb data rest : List Nat)
    (hty : tyb.length = 4) (hdata : data.length < 4294967296) :
    parseChunks (fuel + 1) (chunkSpec tyb data ++ rest)
      = (parseChunks fuel rest).map (fun r => (tyb, data) :: r) := by
  have hL : chunkSpec tyb data ++ rest
      = be32 data.length ++ (tyb ++ (data ++ (be32 (crc32 (tyb ++ data)) ++ rest))) := by
    simp [chunkSpec, List.append_assoc]
  have hne : chunkSpec tyb data ++ rest ≠ [] := by
    rw [hL]
    simp [be32]
  have hlen : readBE32 (chunkSpec tyb data ++ rest) = data.length := by
    rw [hL]
    exact readBE32_be32 data.length _ hdata
  have hLlen : (chunkSpec tyb data ++ rest).length = 12 + data.length + rest.length := by
    simp [chunkSpec, be32, hty]
    omega
  have hty4 : ((chunkSpec tyb data ++ rest).drop 4).take 4 = tyb := by
    rw [hL, List.drop_left' (be32_length data.length), List.take_left' hty]
  have hdat : ((chunkSpec tyb data ++ rest).drop 8).take data.length = data := by
    have hL2 : chunkSpec tyb data ++ rest
        = (be32 data.length ++ tyb) ++ (data ++ (be32 (crc32 (tyb ++ data)) ++ rest)) := by
      simp [chunkSpec, List.append_assoc]
    rw [hL2, List.drop_left' (by simp [be32, hty]), List.take_left' rfl]
  have hcrc : (chunkSpec tyb data ++ rest).drop (8 + data.length)
      = be32 (crc32 (tyb ++ data)) ++ rest := by
    have hL3 : chunkSpec tyb data ++ rest
        = ((be32 data.length ++ tyb) ++ data) ++ (be32 (crc32 (tyb ++ data)) ++ rest) := by
      simp [chunkSpec, List.append_assoc]
    rw [hL3, List.drop_left' (by simp [be32, hty]; omega)]
  have hrest : (chunkSpec tyb data ++ rest).drop (12 + data.length) = rest := by
    have hL4 : chunkSpec tyb data ++ rest = chunkSpec tyb data ++ rest := rfl
    rw [List.drop_left' (by simp [chunkSpec, be32, hty]; omega)]
  simp only [parseChunks, hne, if_false, hlen]
  rw [if_pos (by rw [hLlen]; omega)]
  rw [hty4, hdat, hcrc, readBE32_be32 _ _ (crc32_lt _)]
  rw [if_pos rfl, hrest]
  cases parseChunks fuel rest <;> simp

theorem parseChunks_three (fuel : Nat) (hf : 4 ≤ fuel)
    (t1 d1 t2 d2 t3 d3 : List Nat)
    (h1 : t1.length = 4) (h2 : t2.length = 4) (h3 : t3.length = 4)
    (hd1 : d1.length < 4294967296) (hd2 : d2.length < 4294967296)
    (hd3 : d3.length < 4294967296) :
    parseChunks fuel (chunkSpec t1 d1 ++ (chunkSpec t2 d2 ++ chunkSpec t3 d3))
      = some [(t1, d1), (t2, d2), (t3, d3)] := by
  obtain ⟨f, rfl⟩ : ∃ f, fuel = f + 4 := ⟨fuel - 4, by omega⟩
  have e4 : f + 4 = (f + 3) + 1 := by omega
  rw [e4, parseChunks_chunkSpec (f + 3) t1 d1 _ h1 hd1]
  have e3 : f + 3 = (f + 2) + 1 := by omega
  rw [e3, parseChunks_chunkSpec (f + 2) t2 d2 _ h2 hd2]
  have hnil : chunkSpec t3 d3 = chunkSpec t3 d3 ++ [] := by simp
  rw [hnil]
  have e2 : f + 2 = (f + 1) + 1 := by omega
  rw [e2, parseChunks_chunkSpec (f + 1) t3 d3 [] h3 hd3]
  simp [parseChunks]

theorem getD_range_map (l : List Nat) :
    ∀ n s, s + n ≤ l.length →
      (List.range n).map (fun k => l.getD (s + k) 0) = (l.drop s).take n := by
  intro n
  induction n with
  | zero => intro s _; simp
  | succ m ih =>
      intro s hs
      rw [List.range_succ, List.map_append, ih s (by omega), List.take_succ]
      congr 1
      have hget : (l.drop s)[m]? = l[s + m]? := List.getElem?_drop ..
      have hlt : s + m < l.length := by omega
      have hsome : l[s + m]? = some l[s + m] := List.getElem?_eq_getElem hlt
      simp [hget, hsome, List.getD_eq_getElem?_getD]

theorem quad_flatten (f : Nat → Nat) :
    ∀ w : Nat, ((List.range w).map
        (fun x => [f (x * 4), f (x * 4 + 1), f (x * 4 + 2), f (x * 4 + 3)])).flatten
      = (List.range (w * 4)).map f := by
  intro w
  induction w with
  | zero => simp
  | succ m ih =>
      rw [List.range_succ, List.map_append, List.flatten_append, ih]
      have hsm : (m + 1) * 4 = m * 4 + 4 := by ring
      rw [hsm, List.range_add, List.map_append]
      congr 1
      try simp [List.range_succ]

theorem pixelRow_slice (rgba : List Nat) (w y : Nat)
    (hle : y * (w * 4) + w * 4 ≤ rgba.length) :
    pixelRow rgba w y = (rgba.drop (y * (w * 4))).take (w * 4) := by
  unfold pixelRow
  have hpix : ∀ x, pngPixelBytes rgba w y x
      = [rgba.getD (y * (w * 4) + x * 4) 0, rgba.getD (y * (w * 4) + (x * 4 + 1)) 0,
         rgba.getD (y * (w * 4) + (x * 4 + 2)) 0, rgba.getD (y * (w * 4) + (x * 4 + 3)) 0] := by
    intro x
    unfold pngPixelBytes
    have e0 : (y * w + x) * 4 = y * (w * 4) + x * 4 := by ring
    have e1 : (y * w + x) * 4 + 1 = y * (w * 4) + (x * 4 + 1) := by ring
    have e2 : (y * w + x) * 4 + 2 = y * (w * 4) + (x * 4 + 2) := by ring
    have e3 : (y * w + x) * 4 + 3 = y * (w * 4) + (x * 4 + 3) := by ring
    rw [e1, e2, e3, e0]
  have hmap : (List.range w).map (pngPixelBytes rgba w y)
      = (List.range w).map (fun x =>
          [rgba.getD (y * (w * 4) + x * 4) 0, rgba.getD (y * (w * 4) + (x * 4 + 1)) 0,
           rgba.getD (y * (w * 4) + (x * 4 + 2)) 0,
           rgba.getD (y * (w * 4) + (x * 4 + 3)) 0]) :=
    List.map_congr_left (fun x _ => hpix x)
  rw [hmap]
  have hquad := quad_flatten (fun k => rgba.getD (y * (w * 4) + k) 0) w
  simp only at hquad
  rw [hquad]
  exact getD_range_map rgba (w * 4) (y * (w * 4)) (by omega)

theorem flatten_slices (l : List Nat) (c : Nat) :
    ∀ k, k * c ≤ l.length →
      ((List.range k).map (fun y => (l.drop (y * c)).take c)).flatten = l.take (k * c) := by
  intro k
  induction k with
  | zero => simp
  | succ m ih =>
      intro hk
      have hmc : m * c ≤ l.length := by
        have : m * c ≤ (m + 1) * c := Nat.mul_le_mul_right c (by omega)
        omega
      rw [List.range_succ, List.map_append, List.flatten_append, ih hmc]
      have hsm : (m + 1) * c = m * c + c := by ring
      rw [hsm, List.take_add]
      simp

theorem flatten_pixelRows (rgba : List Nat) (w h : Nat)
    (hlen : rgba.length = w * h * 4) :
    ((List.range h).map (fun y => pixelRow rgba w y)).flatten = rgba := by
  have hrows : (List.range h).map (fun y => pixelRow rgba w y)
      = (List.range h).map (fun y => (rgba.drop (y * (w * 4))).take (w * 4)) := by
    apply List.map_congr_left
    intro y hy
    have hylt : y < h := List.mem_range.mp hy
    apply pixelRow_slice
    have : (y + 1) * (w * 4) ≤ h * (w * 4) := Nat.mul_le_mul_right (w * 4) (by omega)
    have hh4 : h * (w * 4) = w * h * 4 := by ring
    have hy4 : y * (w * 4) + w * 4 = (y + 1) * (w * 4) := by ring
    omega
  rw [hrows, flatten_slices rgba (w * 4) h (by rw [hlen]; ring_nf; omega)]
  have : h * (w * 4) = rgba.length := by rw [hlen]; ring
  rw [this, List.take_length]

theorem decodePNG_parse3 (inflate : List Nat → List Nat) (png : List Nat)
    (ty1 ihdr ty2 idat ty3 iend : List Nat)
    (hsig : png.take 8 = pngSignature)
    (hparse : parseChunks png.length (png.drop 8)
        = some [(ty1, ihdr), (ty2, idat), (ty3, iend)]) :
    decodePNG inflate png
      = if ty1 = typeBytes "IHDR" ∧ ty2 = typeBytes "IDAT" ∧ ty3 = typeBytes "IEND"
            ∧ iend = [] ∧ ihdr.length = 13 ∧ ihdr.getD 8 0 = 8 ∧ ihdr.getD 9 0 = 6
            ∧ ihdr.getD 10 0 = 0 ∧ ihdr.getD 11 0 = 0 ∧ ihdr.getD 12 0 = 0 then
          (if (inflate idat).length = readBE32 (ihdr.drop 4) * (1 + readBE32 ihdr * 4) then
            if (chunksOf (1 + readBE32 ihdr * 4) (inflate idat)).all
                (fun r => r.headD 1 = 0) then
              some (readBE32 ihdr, readBE32 (ihdr.drop 4),
                ((chunksOf (1 + readBE32 ihdr * 4) (inflate idat)).map
                  (fun r => r.tail)).flatten)
            else none
          else none)
        else none := by
  unfold decodePNG
  rw [hsig, if_pos rfl, hparse]

/-- C7: decoding the encoder output with the (spec-modelled) standard
PNG decoder reproduces the original width, height and all four channels
of every pixel exactly, for any inflate inverse of the external deflate
on the emitted scanline buffer. -/
theorem decodePNG_roundtrip (deflate inflate : List Nat → List Nat) (rgba : List Nat)
    (w h : Nat) (hw : 1 ≤ w) (hh : 1 ≤ h)
    (hw32 : w < 4294967296) (hh32 : h < 4294967296)
    (hlen : rgba.length = w * h * 4)
    (hdlen : (deflate (rawDataLoop rgba w h)).length < 4294967296)
    (hinf : inflate (deflate (rawDataLoop rgba w h)) = rawDataLoop rgba w h) :
    decodePNG inflate (encodePNG deflate rgba w h) = some (w, h, rgba) := by
  rw [encodePNG_eq]
  rw [rawDataLoop_eq] at hinf hdlen
  have hihdr : (be32 w ++ be32 h ++ [8, 6, 0, 0, 0] : List Nat).length = 13 := by
    simp [be32]
  have hsig : pngSignature.length = 8 := rfl
  have hassoc : pngSignature ++ chunkSpec (typeBytes "IHDR") (be32 w ++ be32 h ++ [8, 6, 0, 0, 0])
        ++ chunkSpec (typeBytes "IDAT") (deflate (rawSpec rgba w h))
        ++ chunkSpec (typeBytes "IEND") []
      = pngSignature ++ (chunkSpec (typeBytes "IHDR") (be32 w ++ be32 h ++ [8, 6, 0, 0, 0])
        ++ (chunkSpec (typeBytes "IDAT") (deflate (rawSpec rgba w h))
          ++ chunkSpec (typeBytes "IEND") [])) := by
    simp [List.append_assoc]
  rw [hassoc]
  have hfuel : 4 ≤ (pngSignature ++ (chunkSpec (typeBytes "IHDR")
        (be32 w ++ be32 h ++ [8, 6, 0, 0, 0])
      ++ (chunkSpec (typeBytes "IDAT") (deflate (rawSpec rgba w h))
        ++ chunkSpec (typeBytes "IEND") []))).length := by
    simp [pngSignature]
  rw [decodePNG_parse3 inflate _ _ _ _ _ _ _ (List.take_left' hsig)
    (by
      rw [List.drop_left' hsig]
      exact parseChunks_three _ hfuel _ _ _ _ _ _ (by decide) (by decide) (by decide)
        (by rw [hihdr]; omega) hdlen (by simp))]
  rw [if_pos ?hguard]
  case hguard =>
    refine ⟨rfl, rfl, rfl, rfl, hihdr, ?_, ?_, ?_, ?_, ?_⟩ <;> simp [be32, List.getD]
  have hws : readBE32 (be32 w ++ be32 h ++ [8, 6, 0, 0, 0]) = w := by
    rw [List.append_assoc]
    exact readBE32_be32 w _ hw32
  have hhs : readBE32 ((be32 w ++ be32 h ++ [8, 6, 0, 0, 0]).drop 4) = h := by
    rw [List.append_assoc, List.drop_left' (be32_length w)]
    exact readBE32_be32 h _ hh32
  rw [hws, hhs, hinf]
  have hrowlen : ∀ y ∈ List.range h, ((0 : Nat) :: pixelRow rgba w y).length = 1 + w * 4 := by
    intro y _
    simp [pixelRow_length]
    omega
  have hrawlen : (rawSpec rgba w h).length = h * (1 + w * 4) := by
    unfold rawSpec
    rw [flatten_map_length _ (1 + w * 4) _ hrowlen]
    simp
  rw [if_pos hrawlen]
  have hrows : chunksOf (1 + w * 4) (rawSpec rgba w h)
      = (List.range h).map (fun y => 0 :: pixelRow rgba w y) := by
    unfold rawSpec
    refine chunksOf_of_uniform (1 + w * 4) (by omega) _ ?_
    intro r hr
    obtain ⟨y, hy, rfl⟩ := List.mem_map.mp hr
    exact hrowlen y hy
  rw [hrows]
  rw [if_pos (by simp)]
  have htails : ((List.range h).map (fun y => (0 : Nat) :: pixelRow rgba w y)).map
        (fun r => r.tail)
      = (List.range h).map (fun y => pixelRow rgba w y) := by
    rw [List.map_map]
    rfl
  rw [htails, flatten_pixelRows rgba w h hlen]

/-- Witness for C7 at width 1, height 1, one pixel, and the identity in
place of the external deflate/inflate pair. -/
theorem decodePNG_roundtrip_witness :
    decodePNG id (encodePNG id [10, 20, 30, 40] 1 1) = some (1, 1, [10, 20, 30, 40]) :=
  decodePNG_roundtrip id id [10, 20, 30, 40] 1 1 (by decide) (by decide)
    (by decide) (by decide) (by decide) (by decide) rfl

end PiDoom
